import Mathlib

/-!
Verification of the `dowhy.gcm` package initializer (`src/dowhy/gcm/__init__.py`)
and of the structural-causal-model execution engine its spec describes.

The first half shallowly embeds the Python module body as a list of statements
and proves facts about the public surface the initializer declares.  The second
half models, from the specification, the graph/counterfactual/sampling engine
that lives in the (not provided) submodules, and proves the spec's properties
about it.
-/

/-- A statement of a Python module body, restricted to the statement forms
relevant to a package initializer: a module docstring, a `from . import a, b`
statement binding submodules, a `from .mod import n1, n2, ...` statement, a
function definition, a class definition, or any other statement. -/
inductive PyStmt : Type
  | docstring (text : String)
  | subImports (mods : List String)
  | fromImport (mod : String) (names : List String)
  | funcDef (name : String)
  | classDef (name : String)
  | other
  deriving DecidableEq, Repr

/-- The body of `src/dowhy/gcm/__init__.py`, statement by statement, in source
order. -/
def gcmInitStmts : List PyStmt :=
  [ PyStmt.docstring "The gcm sub-package provides features built on top of graphical causal model (GCM) based inference. The status of this addition and its API is considered experimental, meaning there might be breaking changes to its API in the future.",
    PyStmt.subImports ["ml", "util"],
    PyStmt.fromImport "cms"
      ["FunctionalCausalModel", "InvertibleStructuralCausalModel",
       "ProbabilisticCausalModel", "StructuralCausalModel"],
    PyStmt.fromImport "distribution_change"
      ["distribution_change", "distribution_change_of_graphs"],
    PyStmt.fromImport "fcms"
      ["AdditiveNoiseModel", "ClassificationModel", "ClassifierFCM",
       "PostNonlinearModel", "PredictionModel"],
    PyStmt.fromImport "fitting_sampling" ["draw_samples", "fit"],
    PyStmt.fromImport "graph"
      ["ConditionalStochasticModel", "DirectedGraph", "FunctionalCausalModel",
       "StochasticModel", "is_root_node"],
    PyStmt.fromImport "independence_test" ["approx_kernel_based", "kernel_based"],
    PyStmt.fromImport "stochastic_models"
      ["BayesianGaussianMixtureDistribution", "EmpiricalDistribution",
       "ScipyDistribution"],
    PyStmt.fromImport "whatif" ["counterfactual_samples", "interventional_samples"] ]

/-- Whether a statement is an import statement (either form). -/
def PyStmt.isImport : PyStmt → Bool
  | .subImports _ => true
  | .fromImport _ _ => true
  | _ => false

/-- Whether a statement is a function definition. -/
def PyStmt.isFuncDef : PyStmt → Bool
  | .funcDef _ => true
  | _ => false

/-- Whether a statement is a class definition. -/
def PyStmt.isClassDef : PyStmt → Bool
  | .classDef _ => true
  | _ => false

/-- Whether a statement is a module docstring. -/
def PyStmt.isDocstring : PyStmt → Bool
  | .docstring _ => true
  | _ => false

/-- Whether a statement is a `from .mod import ...` statement for the given
submodule name. -/
def PyStmt.isFromImportOf : PyStmt → String → Bool
  | .fromImport mod _, m => mod == m
  | _, _ => false

/-- The submodule a `from .mod import ...` statement imports from, if any. -/
def PyStmt.fromModule? : PyStmt → Option String
  | .fromImport mod _ => some mod
  | _ => none

/-- The name bindings a statement introduces into the module namespace, in
order, as pairs (bound name, submodule the value comes from).  A
`from . import m` statement binds the submodule name `m` to the submodule `m`
itself; a `from .mod import n` statement binds `n` to submodule `mod`; no
other statement form binds a name. -/
def PyStmt.bindings : PyStmt → List (String × String)
  | .subImports mods => mods.map (fun m => (m, m))
  | .fromImport mod names => names.map (fun n => (n, mod))
  | _ => []

/-- All bindings performed by a module body, in execution order. -/
def moduleBindings (stmts : List PyStmt) : List (String × String) :=
  (stmts.map PyStmt.bindings).flatten

/-- The submodule a given public name finally refers to after the whole module
body has executed: Python executes statements top to bottom and a later binding
of the same name shadows an earlier one, so we fold left and keep the last
binding. -/
def finalBinding (stmts : List PyStmt) (name : String) : Option String :=
  (moduleBindings stmts).foldl (fun acc kv => if kv.1 = name then some kv.2 else acc) none

/-- The list of submodules from which a given name is bound, in execution
order (a name bound more than once appears more than once). -/
def bindingSources (stmts : List PyStmt) (name : String) : List String :=
  (moduleBindings stmts).filterMap (fun kv => if kv.1 = name then some kv.2 else none)

/-- Whether the module body binds `name` by importing it from submodule
`mod`. -/
def importsNameFrom (stmts : List PyStmt) (name mod : String) : Bool :=
  (moduleBindings stmts).contains (name, mod)

/-- The eight submodules the spec names as carrying the library's logic. -/
def specSubmodules : List String :=
  ["cms", "fcms", "graph", "independence_test", "distribution_change",
   "fitting_sampling", "whatif", "stochastic_models"]

/-- C1: the initializer `src/dowhy/gcm/__init__.py` contains no function or
class definitions and no statement other than its docstring and imports, and
every name it binds is bound by an import statement. -/
theorem gcm_init_only_imports :
    (∀ s ∈ gcmInitStmts,
        s.isFuncDef = false ∧ s.isClassDef = false ∧ s ≠ PyStmt.other) ∧
    (∀ s ∈ gcmInitStmts, s.isDocstring = true ∨ s.isImport = true) ∧
    (∀ s ∈ gcmInitStmts, s.bindings ≠ [] → s.isImport = true) := by
  decide

/-- C2: the initializer has a `from .mod import ...` statement for each of the
eight submodules the spec names, and every `from .mod import ...` statement in
it targets one of those eight submodules. -/
theorem gcm_init_imports_eight_submodules :
    (∀ m ∈ specSubmodules, ∃ s ∈ gcmInitStmts, s.isFromImportOf m = true) ∧
    (∀ s ∈ gcmInitStmts, ∀ m ∈ s.fromModule?, m ∈ specSubmodules) := by
  decide

/-- C3: the query/fitting operations are exported from the modules the spec
implies: `fit` and `draw_samples` are imported from `.fitting_sampling`, and
`interventional_samples` and `counterfactual_samples` from `.whatif`. -/
theorem gcm_init_fitter_sampler_exports :
    importsNameFrom gcmInitStmts "fit" "fitting_sampling" = true ∧
    importsNameFrom gcmInitStmts "draw_samples" "fitting_sampling" = true ∧
    importsNameFrom gcmInitStmts "interventional_samples" "whatif" = true ∧
    importsNameFrom gcmInitStmts "counterfactual_samples" "whatif" = true := by
  decide

/-- C4: the causal model sub-variants `ProbabilisticCausalModel`,
`StructuralCausalModel` and `InvertibleStructuralCausalModel` are all imported
from the `.cms` submodule. -/
theorem gcm_init_causal_model_variants :
    importsNameFrom gcmInitStmts "ProbabilisticCausalModel" "cms" = true ∧
    importsNameFrom gcmInitStmts "StructuralCausalModel" "cms" = true ∧
    importsNameFrom gcmInitStmts "InvertibleStructuralCausalModel" "cms" = true := by
  decide

/-- C5: `FunctionalCausalModel` is bound exactly twice — first from `.cms`,
then from `.graph` — so after the module body executes, the public name refers
to the `graph` binding and the `cms` binding is shadowed. -/
theorem gcm_init_functional_causal_model_shadowed :
    bindingSources gcmInitStmts "FunctionalCausalModel" = ["cms", "graph"] ∧
    finalBinding gcmInitStmts "FunctionalCausalModel" = some "graph" := by
  decide

/-- C9: the stochastic-model collaborators `EmpiricalDistribution`,
`BayesianGaussianMixtureDistribution` and `ScipyDistribution` are exported from
the `.stochastic_models` submodule. -/
theorem gcm_init_stochastic_model_exports :
    importsNameFrom gcmInitStmts "EmpiricalDistribution" "stochastic_models" = true ∧
    importsNameFrom gcmInitStmts "BayesianGaussianMixtureDistribution" "stochastic_models" = true ∧
    importsNameFrom gcmInitStmts "ScipyDistribution" "stochastic_models" = true := by
  decide

/-- C10: beyond the eight spec-named submodules, the initializer also imports
the `ml` and `util` submodules themselves, making `dowhy.gcm.ml` and
`dowhy.gcm.util` part of the public surface. -/
theorem gcm_init_ml_util_submodules :
    PyStmt.subImports ["ml", "util"] ∈ gcmInitStmts ∧
    finalBinding gcmInitStmts "ml" = some "ml" ∧
    finalBinding gcmInitStmts "util" = some "util" := by
  decide

/-!
## The graph component, modelled from the spec

The submodules behind the initializer (`graph`, `whatif`, `fitting_sampling`)
are not part of the provided source, so the definitions below are built from
the specification's description of the structural-causal-model engine.
-/

/-- Modelled from the spec: the error kind raised during graph construction
when `add_edge` would close a cycle (section 7, "Kinds: CycleError (graph
construction)").  The `graph` submodule itself is not in the provided
source. -/
inductive GraphError : Type
  | CycleError
  deriving DecidableEq, Repr

/-- Modelled from the spec: a directed graph over named nodes — "set of Nodes,
set of directed edges (parent → child)" — with the invariant that it stays
acyclic.  The `graph` submodule itself is not in the provided source. -/
structure DirectedGraph : Type where
  nodes : List String
  edges : List (String × String)
  deriving DecidableEq, Repr

/-- `Reaches E a b`: node `b` is reachable from node `a` by following zero or
more edges of `E`. -/
inductive Reaches (E : List (String × String)) : String → String → Prop
  | refl (a : String) : Reaches E a a
  | head {a b c : String} : (a, b) ∈ E → Reaches E b c → Reaches E a c

theorem Reaches.trans {E : List (String × String)} {a b c : String}
    (h₁ : Reaches E a b) (h₂ : Reaches E b c) : Reaches E a c := by
  induction h₁ with
  | refl => exact h₂
  | head hmem _ ih => exact Reaches.head hmem (ih h₂)

theorem Reaches.snoc {E : List (String × String)} {a b c : String}
    (h₁ : Reaches E a b) (h₂ : (b, c) ∈ E) : Reaches E a c :=
  h₁.trans (Reaches.head h₂ (Reaches.refl c))

/-- One expansion step of the reachable set: the targets of edges whose source
is already in `s` but whose target is not. -/
def newSuccs (E : List (String × String)) (s : List String) : List String :=
  (E.filterMap (fun e => if e.1 ∈ s ∧ e.2 ∉ s then some e.2 else none)).dedup

/-- `s` is closed under following edges of `E`. -/
def Closed (E : List (String × String)) (s : List String) : Prop :=
  ∀ e ∈ E, e.1 ∈ s → e.2 ∈ s

theorem mem_newSuccs {E : List (String × String)} {s : List String} {y : String}
    (h : y ∈ newSuccs E s) : y ∉ s ∧ ∃ p, (p, y) ∈ E ∧ p ∈ s := by
  simp only [newSuccs, List.mem_dedup, List.mem_filterMap] at h
  obtain ⟨⟨p, q⟩, he, hif⟩ := h
  by_cases hc : p ∈ s ∧ q ∉ s
  · rw [if_pos hc] at hif
    obtain rfl := Option.some.inj hif
    exact ⟨hc.2, p, he, hc.1⟩
  · rw [if_neg hc] at hif
    exact absurd hif (by simp)

theorem closed_of_newSuccs_nil {E : List (String × String)} {s : List String}
    (h : newSuccs E s = []) : Closed E s := by
  intro e he h₁
  by_contra h₂
  have hsome : (if e.1 ∈ s ∧ e.2 ∉ s then some e.2 else none) = some e.2 :=
    if_pos ⟨h₁, h₂⟩
  have hmem : e.2 ∈ newSuccs E s := by
    simp only [newSuccs, List.mem_dedup, List.mem_filterMap]
    exact ⟨e, he, hsome⟩
  rw [h] at hmem
  exact absurd hmem (List.not_mem_nil _)

/-- Fuel-bounded saturation of the reachable set. -/
def reachAux (E : List (String × String)) : Nat → List String → List String
  | 0, s => s
  | fuel + 1, s =>
    if newSuccs E s = [] then s else reachAux E fuel (newSuccs E s ++ s)

/-- All nodes reachable from `a` along edges of `E`.  The fuel
`(E.map Prod.snd).dedup.length` suffices because every newly discovered node is
the target of some edge, and each non-final expansion step discovers at least
one node. -/
def reachableFrom (E : List (String × String)) (a : String) : List String :=
  reachAux E (E.map Prod.snd).dedup.length [a]

/-- Decidable reachability test: is `b` reachable from `a` over edges `E`? -/
def reaches (E : List (String × String)) (a b : String) : Bool :=
  decide (b ∈ reachableFrom E a)

theorem reachAux_sound {E : List (String × String)} {a : String} :
    ∀ fuel s, (∀ x ∈ s, Reaches E a x) → ∀ x ∈ reachAux E fuel s, Reaches E a x := by
  intro fuel
  induction fuel with
  | zero => intro s hs x hx; exact hs x hx
  | succ n ih =>
    intro s hs x hx
    rw [reachAux] at hx
    by_cases hns : newSuccs E s = []
    · rw [if_pos hns] at hx; exact hs x hx
    · rw [if_neg hns] at hx
      refine ih _ ?_ x hx
      intro y hy
      rcases List.mem_append.mp hy with hy | hy
      · obtain ⟨-, p, hpE, hps⟩ := mem_newSuccs hy
        exact (hs p hps).snoc hpE
      · exact hs y hy

theorem reachAux_closed (E : List (String × String)) (cand : List String)
    (_hcand : cand.Nodup) (hE : ∀ e ∈ E, e.2 ∈ cand) :
    ∀ fuel s, s.Nodup → s ⊆ cand → cand.length ≤ s.length + fuel →
      Closed E (reachAux E fuel s) ∧ s ⊆ reachAux E fuel s := by
  intro fuel
  induction fuel with
  | zero =>
    intro s hnd hsub hlen
    refine ⟨?_, fun x hx => hx⟩
    have hperm : List.Perm s cand :=
      (List.subperm_of_subset hnd hsub).perm_of_length_le (by simpa using hlen)
    intro e he _
    exact hperm.symm.subset (hE e he)
  | succ n ih =>
    intro s hnd hsub hlen
    rw [reachAux]
    by_cases hns : newSuccs E s = []
    · rw [if_pos hns]
      exact ⟨closed_of_newSuccs_nil hns, fun x hx => hx⟩
    · rw [if_neg hns]
      have hdisj : List.Disjoint (newSuccs E s) s := fun x hx hx' =>
        (mem_newSuccs hx).1 hx'
      have hnd' : (newSuccs E s ++ s).Nodup :=
        List.nodup_append.mpr ⟨List.nodup_dedup _, hnd, hdisj⟩
      have hsub' : newSuccs E s ++ s ⊆ cand := by
        intro y hy
        rcases List.mem_append.mp hy with hy | hy
        · obtain ⟨-, p, hpE, -⟩ := mem_newSuccs hy
          exact hE (p, y) hpE
        · exact hsub hy
      have hpos : 1 ≤ (newSuccs E s).length :=
        List.length_pos.mpr hns
      have hlen' : cand.length ≤ (newSuccs E s ++ s).length + n := by
        rw [List.length_append]
        omega
      obtain ⟨hc, hs⟩ := ih (newSuccs E s ++ s) hnd' hsub' hlen'
      exact ⟨hc, fun x hx => hs (List.mem_append_right _ hx)⟩

theorem reachableFrom_spec (E : List (String × String)) (a : String) :
    Closed E (reachableFrom E a) ∧ a ∈ reachableFrom E a := by
  have hkey := reachAux_closed E (a :: E.map Prod.snd).dedup (List.nodup_dedup _)
    (fun e he => by
      simp only [List.mem_dedup, List.mem_cons, List.mem_map]
      exact Or.inr ⟨e, he, rfl⟩)
    (E.map Prod.snd).dedup.length [a] (by simp)
    (fun x hx => by
      simp only [List.mem_singleton] at hx
      subst hx
      simp [List.mem_dedup])
    (by
      by_cases hmem : a ∈ E.map Prod.snd
      · rw [List.dedup_cons_of_mem hmem]; simp
      · rw [List.dedup_cons_of_not_mem hmem]; simp [Nat.add_comm])
  exact ⟨hkey.1, hkey.2 (List.mem_singleton_self a)⟩

theorem reaches_complete {E : List (String × String)} {a b : String}
    (h : Reaches E a b) : reaches E a b = true := by
  have hstep : ∀ x y, Reaches E x y → x ∈ reachableFrom E a → y ∈ reachableFrom E a := by
    intro x y hxy
    induction hxy with
    | refl => exact id
    | head hmem _ ih =>
      intro hx
      exact ih ((reachableFrom_spec E a).1 _ hmem hx)
  simp only [reaches, decide_eq_true_eq]
  exact hstep a b h (reachableFrom_spec E a).2

theorem reaches_sound {E : List (String × String)} {a b : String}
    (h : reaches E a b = true) : Reaches E a b := by
  simp only [reaches, decide_eq_true_eq] at h
  refine reachAux_sound _ _ ?_ b h
  intro x hx
  rw [List.mem_singleton] at hx
  subst hx
  exact Reaches.refl _

theorem reaches_iff {E : List (String × String)} {a b : String} :
    reaches E a b = true ↔ Reaches E a b :=
  ⟨reaches_sound, reaches_complete⟩

/-- An edge list is acyclic: no edge closes a path back to its own source. -/
def Acyclic (E : List (String × String)) : Prop :=
  ∀ a b : String, (a, b) ∈ E → ¬ Reaches E b a

/-- Decidable acyclicity check over an edge list. -/
def acyclicB (E : List (String × String)) : Bool :=
  E.all (fun e => !(reaches E e.2 e.1))

theorem acyclic_iff {E : List (String × String)} : Acyclic E ↔ acyclicB E = true := by
  unfold Acyclic acyclicB
  rw [List.all_eq_true]
  constructor
  · intro h e he
    cases hr : reaches E e.2 e.1 with
    | false => rfl
    | true => exact absurd (reaches_sound hr) (h e.1 e.2 he)
  · intro h a b hab hr
    have := h (a, b) hab
    rw [reaches_complete hr] at this
    simp at this

/-- Any walk in the graph extended with the edge `(p, c)` either avoids the new
edge entirely, or splits at the first use of the new edge. -/
theorem reaches_new_edge_split {E : List (String × String)} {p c x y : String}
    (h : Reaches ((p, c) :: E) x y) :
    Reaches E x y ∨ (Reaches E x p ∧ Reaches ((p, c) :: E) c y) := by
  induction h with
  | refl => exact Or.inl (Reaches.refl _)
  | head hmem hr ih =>
    rcases List.mem_cons.mp hmem with heq | hmem'
    · obtain ⟨ha, hb⟩ := Prod.mk.inj heq
      subst ha
      subst hb
      exact Or.inr ⟨Reaches.refl _, hr⟩
    · rcases ih with h₁ | ⟨h₁, h₂⟩
      · exact Or.inl (Reaches.head hmem' h₁)
      · exact Or.inr ⟨Reaches.head hmem' h₁, h₂⟩

/-- If the child cannot already reach the parent, every walk in the extended
graph decomposes into walks of the original graph. -/
theorem reaches_new_edge_full {E : List (String × String)} {p c x y : String}
    (hnp : ¬ Reaches E c p) (h : Reaches ((p, c) :: E) x y) :
    Reaches E x y ∨ (Reaches E x p ∧ Reaches E c y) := by
  rcases reaches_new_edge_split h with h₁ | ⟨h₁, h₂⟩
  · exact Or.inl h₁
  · rcases reaches_new_edge_split h₂ with h₃ | ⟨h₃, _⟩
    · exact Or.inr ⟨h₁, h₃⟩
    · exact absurd h₃ hnp

/-- Adding the edge `(p, c)` to an acyclic graph keeps it acyclic, provided
`c` does not already reach `p`. -/
theorem acyclic_insert {E : List (String × String)} {p c : String}
    (hacyc : Acyclic E) (hnp : ¬ Reaches E c p) : Acyclic ((p, c) :: E) := by
  intro a b hab hr
  rcases List.mem_cons.mp hab with heq | hmem
  · obtain ⟨ha, hb⟩ := Prod.mk.inj heq
    subst ha
    subst hb
    rcases reaches_new_edge_full hnp hr with h₁ | ⟨h₁, _⟩
    · exact hnp h₁
    · exact hnp h₁
  · rcases reaches_new_edge_full hnp hr with h₁ | ⟨h₁, h₂⟩
    · exact hacyc a b hmem h₁
    · exact hnp ((h₂.snoc hmem).trans h₁)

/-- Modelled from the spec: `add_edge(parent, child)` on a `DirectedGraph`
"fails with CycleError if the edge would create a cycle" (section 4.1);
otherwise it records the edge (inserting endpoints not yet among the nodes).
The `graph` submodule itself is not in the provided source. -/
def add_edge (g : DirectedGraph) (parent child : String) :
    Except GraphError DirectedGraph :=
  if reaches g.edges child parent then
    Except.error GraphError.CycleError
  else
    Except.ok
      { nodes := (if parent ∈ g.nodes then [] else [parent]) ++
                 (if child ∈ g.nodes then [] else [child]) ++ g.nodes,
        edges := (parent, child) :: g.edges }

/-- C7: on an acyclic directed graph, `add_edge parent child` fails with
`CycleError` whenever adding that edge would create a cycle, and after every
successful `add_edge` call the resulting graph is still acyclic. -/
theorem add_edge_cycle_safe (g : DirectedGraph) (parent child : String)
    (hacyc : Acyclic g.edges) :
    (¬ Acyclic ((parent, child) :: g.edges) →
        add_edge g parent child = Except.error GraphError.CycleError) ∧
    (∀ g', add_edge g parent child = Except.ok g' → Acyclic g'.edges) := by
  constructor
  · intro hbad
    have hrc : Reaches g.edges child parent := by
      by_contra hnp
      exact hbad (acyclic_insert hacyc hnp)
    simp [add_edge, reaches_complete hrc]
  · intro g' hok
    by_cases hr : reaches g.edges child parent = true
    · simp [add_edge, hr] at hok
    · have hnp : ¬ Reaches g.edges child parent := fun hrc => hr (reaches_complete hrc)
      rw [Bool.not_eq_true] at hr
      simp only [add_edge, hr, Bool.false_eq_true, if_false, Except.ok.injEq] at hok
      subst hok
      exact acyclic_insert hacyc hnp

/-- A small concrete graph with the single edge a → b. -/
def demoGraph : DirectedGraph :=
  { nodes := ["a", "b"], edges := [("a", "b")] }

/-- Witness for C7: instantiating `add_edge_cycle_safe` on the concrete
acyclic graph a → b and the candidate edge b → a (which would close a
cycle). -/
theorem add_edge_cycle_safe_witness :
    (¬ Acyclic (("b", "a") :: demoGraph.edges) →
        add_edge demoGraph "b" "a" = Except.error GraphError.CycleError) ∧
    (∀ g', add_edge demoGraph "b" "a" = Except.ok g' → Acyclic g'.edges) :=
  add_edge_cycle_safe demoGraph "b" "a" (acyclic_iff.mpr (by decide))

/-!
## The structural-causal-model execution engine, modelled from the spec

The spec's Sampler evaluates the graph in topological order; counterfactual
queries run abduction (invert each mechanism on the observed row to recover
its noise) and then replay the forward simulation with the recovered noise.
-/

/-- Modelled from the spec: an invertible structural causal model as used by
`counterfactual_samples` — a topological evaluation order over the nodes, the
parent lists, a per-node conditional mechanism `f(parent_values, noise) ->
value` (a root node has an empty parent list), and the noise-inversion map
`noise = f⁻¹(observed_value, observed_parent_values)` used during abduction.
The `whatif` and `cms` submodules themselves are not in the provided source. -/
structure SCM (Node Val Noise : Type) : Type where
  order : List Node
  parents : Node → List Node
  mechanism : Node → List Val → Noise → Val
  invert : Node → List Val → Val → Noise

/-- The defining property of an `InvertibleStructuralCausalModel`: every
mechanism is invertible in its noise argument. -/
def SCM.Invertible (m : SCM Node Val Noise) : Prop :=
  ∀ (n : Node) (ps : List Val) (v : Val), m.mechanism n ps (m.invert n ps v) = v

/-- `topoCheck parents seen l = true` iff processing the nodes of `l` after the
nodes of `seen` is a valid topological evaluation: each node's parents were all
processed before it, and no node is processed twice. -/
def topoCheck [DecidableEq Node] (parents : Node → List Node) :
    List Node → List Node → Bool
  | _, [] => true
  | seen, n :: rest =>
    (parents n).all (fun p => decide (p ∈ seen)) && decide (n ∉ seen) &&
      topoCheck parents (n :: seen) rest

/-- One step of the prediction pass at node `n`: use the intervention override
if `n` is intervened on, otherwise compute the mechanism on the
already-computed parent values and the supplied noise. -/
def replayStep [DecidableEq Node] (m : SCM Node Val Noise) (noise : Node → Noise)
    (itv : Node → Option Val) (acc : Node → Val) (n : Node) : Node → Val :=
  Function.update acc n
    ((itv n).getD (m.mechanism n ((m.parents n).map acc) (noise n)))

/-- Forward simulation of the whole graph in topological order with a fixed
per-node noise assignment and an intervention overlay. -/
def replay [DecidableEq Node] (m : SCM Node Val Noise) (noise : Node → Noise)
    (itv : Node → Option Val) (init : Node → Val) : Node → Val :=
  m.order.foldl (replayStep m noise itv) init

/-- Modelled from the spec: the abduction pass of `counterfactual_samples` —
recover the noise implied at every node of the fully observed factual row by
inverting its mechanism on the observed parent values. -/
def abduct (m : SCM Node Val Noise) (obs : Node → Val) : Node → Noise :=
  fun n => m.invert n ((m.parents n).map obs) (obs n)

/-- Modelled from the spec: `counterfactual_samples` — abduction, action
(apply the intervention overlay), prediction (replay the forward simulation
with the recovered, not fresh, noise).  `dflt` is the placeholder value a node
holds before the simulation assigns it. -/
def counterfactual_samples [DecidableEq Node] (m : SCM Node Val Noise)
    (obs : Node → Val) (itv : Node → Option Val) (dflt : Val) : Node → Val :=
  replay m (abduct m obs) itv (fun _ => dflt)

theorem replay_foldl_agrees [DecidableEq Node] (m : SCM Node Val Noise)
    (obs : Node → Val) (hinv : m.Invertible) :
    ∀ (l seen : List Node) (acc : Node → Val),
      topoCheck m.parents seen l = true →
      (∀ x ∈ seen, acc x = obs x) →
      ∀ x, x ∈ seen ∨ x ∈ l →
        List.foldl (replayStep m (abduct m obs) (fun _ => none)) acc l x = obs x := by
  intro l
  induction l with
  | nil =>
    intro seen acc _ hacc x hx
    rcases hx with hx | hx
    · exact hacc x hx
    · exact absurd hx (List.not_mem_nil x)
  | cons n rest ih =>
    intro seen acc htopo hacc x hx
    rw [topoCheck] at htopo
    simp only [Bool.and_eq_true, List.all_eq_true, decide_eq_true_eq] at htopo
    obtain ⟨⟨hpar, hnot⟩, hrest⟩ := htopo
    simp only [List.foldl_cons]
    have hstep : ∀ y ∈ n :: seen,
        replayStep m (abduct m obs) (fun _ => none) acc n y = obs y := by
      intro y hy
      rcases List.mem_cons.mp hy with rfl | hy
      · unfold replayStep
        rw [Function.update_same, Option.getD_none]
        have hmap : (m.parents y).map acc = (m.parents y).map obs :=
          List.map_congr_left (fun p hp => hacc p (hpar p hp))
        rw [hmap]
        exact hinv y _ (obs y)
      · unfold replayStep
        rw [Function.update_noteq (fun hq => hnot (by rw [← hq]; exact hy))]
        exact hacc y hy
    refine ih (n :: seen) _ hrest hstep x ?_
    rcases hx with hx | hx
    · exact Or.inl (List.mem_cons_of_mem n hx)
    · rcases List.mem_cons.mp hx with rfl | hx
      · exact Or.inl (List.mem_cons_self x seen)
      · exact Or.inr hx

/-- C6: for an invertible structural causal model and a fully observed factual
row, `counterfactual_samples` with an empty intervention reproduces the row
exactly: the noise recovered by abduction, replayed through forward simulation
with no overrides, yields the observed value at every node of the evaluation
order. -/
theorem counterfactual_empty_intervention_roundtrip [DecidableEq Node]
    (m : SCM Node Val Noise) (obs : Node → Val) (dflt : Val)
    (hinv : m.Invertible) (htopo : topoCheck m.parents [] m.order = true) :
    ∀ n ∈ m.order, counterfactual_samples m obs (fun _ => none) dflt n = obs n := by
  intro n hn
  unfold counterfactual_samples replay
  exact replay_foldl_agrees m obs hinv m.order [] _ htopo
    (fun x hx => absurd hx (List.not_mem_nil x)) n (Or.inr hn)

/-- A concrete two-node chain model 0 → 1 with additive mechanisms over the
integers: node 0 is a root carrying its noise, node 1 adds its noise to its
parent's value. -/
def chainSCM : SCM Nat Int Int :=
  { order := [0, 1],
    parents := fun n => if n = 0 then [] else [0],
    mechanism := fun n ps e => if n = 0 then e else ps.headD 0 + e,
    invert := fun n ps v => if n = 0 then v else v - ps.headD 0 }

/-- A concrete fully observed factual row for `chainSCM`. -/
def chainObs : Nat → Int := fun n => if n = 0 then 3 else 5

/-- Witness for C6: the round-trip theorem instantiated on the concrete chain
model, its factual row, and node 1. -/
theorem counterfactual_roundtrip_witness :
    counterfactual_samples chainSCM chainObs (fun _ => none) 0 1 = chainObs 1 :=
  counterfactual_empty_intervention_roundtrip chainSCM chainObs 0
    (fun n ps v => by by_cases h : n = 0 <;> simp [chainSCM, h])
    (by decide) 1 (by decide)

/-!
## Seeded sampling and determinism, modelled from the spec

Randomness is embedded explicitly: a pseudo-random generator state is a `Nat`
seed advanced by a linear congruential step, and a node's noise distribution is
a function of the fresh generator word.  Observational and interventional
sampling thread the generator state through the topological evaluation; the
counterfactual prediction pass feeds every non-intervened node its abducted
noise and never advances the generator.
-/

/-- Modelled from the spec: one step of the explicit pseudo-random generator
("given a fixed random seed/generator state"), a linear congruential update. -/
def lcgNext (s : Nat) : Nat :=
  (1103515245 * s + 12345) % 2147483648

/-- Modelled from the spec: one observational/interventional row — forward
simulation in topological order, drawing fresh noise (a fresh generator word
mapped through the node's noise distribution `noiseOf`) for every
non-intervened node, and returning the row together with the advanced
generator state. -/
def sampleRow [DecidableEq Node] (m : SCM Node Val Noise)
    (noiseOf : Node → Nat → Noise) (itv : Node → Option Val) (dflt : Val)
    (seed : Nat) : (Node → Val) × Nat :=
  m.order.foldl
    (fun st n =>
      match itv n with
      | some v => (Function.update st.1 n v, st.2)
      | none =>
        (Function.update st.1 n
          (m.mechanism n ((m.parents n).map st.1) (noiseOf n (lcgNext st.2))),
         lcgNext st.2))
    (fun _ => dflt, seed)

/-- Modelled from the spec: `draw_samples` — observational sampling, fresh
noise for every node of every row, no overrides, generator state threaded from
row to row. -/
def draw_samples [DecidableEq Node] (m : SCM Node Val Noise)
    (noiseOf : Node → Nat → Noise) (dflt : Val) : Nat → Nat → List (Node → Val)
  | 0, _ => []
  | k + 1, seed =>
    (sampleRow m noiseOf (fun _ => none) dflt seed).1 ::
      draw_samples m noiseOf dflt k (sampleRow m noiseOf (fun _ => none) dflt seed).2

/-- Modelled from the spec: `interventional_samples` — same as observational
sampling but with the intervention overlay applied at every row. -/
def interventional_samples [DecidableEq Node] (m : SCM Node Val Noise)
    (noiseOf : Node → Nat → Noise) (itv : Node → Option Val) (dflt : Val) :
    Nat → Nat → List (Node → Val)
  | 0, _ => []
  | k + 1, seed =>
    (sampleRow m noiseOf itv dflt seed).1 ::
      interventional_samples m noiseOf itv dflt k (sampleRow m noiseOf itv dflt seed).2

/-- Modelled from the spec: one counterfactual prediction step in the seeded
simulator — the intervention override or the abducted noise, never a fresh
generator draw, so the generator state is passed through unchanged. -/
def cfStep [DecidableEq Node] (m : SCM Node Val Noise) (obs : Node → Val)
    (itv : Node → Option Val) (st : (Node → Val) × Nat) (n : Node) :
    (Node → Val) × Nat :=
  match itv n with
  | some v => (Function.update st.1 n v, st.2)
  | none =>
    (Function.update st.1 n
      (m.mechanism n ((m.parents n).map st.1) (abduct m obs n)), st.2)

/-- Modelled from the spec: the counterfactual prediction pass run inside the
seeded simulator (so that its independence from the generator state is a
statement, not a definition). -/
def cfRowSeeded [DecidableEq Node] (m : SCM Node Val Noise) (obs : Node → Val)
    (itv : Node → Option Val) (dflt : Val) (seed : Nat) : (Node → Val) × Nat :=
  m.order.foldl (cfStep m obs itv) (fun _ => dflt, seed)

theorem cfStep_eq_replayStep [DecidableEq Node] (m : SCM Node Val Noise)
    (obs : Node → Val) (itv : Node → Option Val) (acc : Node → Val) (s : Nat)
    (n : Node) :
    cfStep m obs itv (acc, s) n = (replayStep m (abduct m obs) itv acc n, s) := by
  unfold cfStep replayStep
  cases itv n <;> simp

theorem cfRow_foldl_split [DecidableEq Node] (m : SCM Node Val Noise)
    (obs : Node → Val) (itv : Node → Option Val) :
    ∀ (l : List Node) (acc : Node → Val) (s : Nat),
      l.foldl (cfStep m obs itv) (acc, s) =
        (l.foldl (replayStep m (abduct m obs) itv) acc, s) := by
  intro l
  induction l with
  | nil => intro acc s; rfl
  | cons n rest ih =>
    intro acc s
    simp only [List.foldl_cons, cfStep_eq_replayStep]
    exact ih _ s

/-- C8: with a fixed generator state, two calls of `draw_samples` on the same
model with the same sample count are identical (sampling is a pure function of
model, count and seed), and likewise for `interventional_samples`; the
counterfactual prediction pass consumes no fresh randomness: its row is the
same for any two generator states, it equals the unseeded
`counterfactual_samples`, and it leaves the generator state untouched. -/
theorem sampling_deterministic [DecidableEq Node] (m : SCM Node Val Noise)
    (noiseOf : Node → Nat → Noise) (itv : Node → Option Val) (obs : Node → Val)
    (dflt : Val) (k seed seed₁ seed₂ : Nat) :
    draw_samples m noiseOf dflt k seed = draw_samples m noiseOf dflt k seed ∧
    interventional_samples m noiseOf itv dflt k seed =
      interventional_samples m noiseOf itv dflt k seed ∧
    (cfRowSeeded m obs itv dflt seed₁).1 = (cfRowSeeded m obs itv dflt seed₂).1 ∧
    (cfRowSeeded m obs itv dflt seed₁).1 = counterfactual_samples m obs itv dflt ∧
    (cfRowSeeded m obs itv dflt seed₁).2 = seed₁ := by
  refine ⟨rfl, rfl, ?_, ?_, ?_⟩
  · rw [cfRowSeeded, cfRowSeeded, cfRow_foldl_split, cfRow_foldl_split]
  · rw [cfRowSeeded, cfRow_foldl_split]
    rfl
  · rw [cfRowSeeded, cfRow_foldl_split]
